import Mathlib

/-!
Verification of the refactoring-swarm orchestrator.

This file gives a shallow embedding of the program's core:
* the per-file control loop of `src/graph.py` (`manager_router`, `judge_router`,
  `next_file_node`) and the three agent nodes of `src/agents.py`
  (`auditor_node`, `fixer_node`, `judge_node`), modelled as a deterministic
  step function over a `Machine` record, with all external collaborators
  (file reads, pylint, the LLM backend, pytest) supplied by an `Env` oracle
  indexed by call counts;
* the regex helpers of `src/agents.py`: score extraction (`_extract_score`),
  fenced code-block extraction, and the function-block partitioning / diffing
  used in copy mode (`_func_blocks`, `_norm`, the changed-block selection).

Python strings are modelled as `String`/`List Char`; Python floats produced by
`float` on `[0-9.]+` groups are modelled exactly as rationals (such strings
denote exact decimal values); Python dicts keyed by insertion order are
modelled as association lists with in-place value update.
-/

namespace RefactoringSwarm

/-! ## Character classes of the Python regexes (ASCII fragment) -/

/-- Python's `\s` on the inputs in question: ASCII whitespace. -/
def isPySpace (c : Char) : Bool :=
  c = ' ' || c = '\t' || c = '\n' || c = '\r' || c = '\x0b' || c = '\x0c'

/-- Python's `\w` (ASCII fragment): alphanumeric or underscore. -/
def isWordChar (c : Char) : Bool := c.isAlphanum || c = '_'

/-- The character class `[0-9.]` of `_extract_score`. -/
def isDigitDot (c : Char) : Bool := c.isDigit || c = '.'

/-- Consume an exact literal prefix, returning the rest. -/
def consumeLit : List Char → List Char → Option (List Char)
  | [], cs => some cs
  | _ :: _, [] => none
  | p :: ps, c :: cs => if c = p then consumeLit ps cs else none

/-- Consume a literal prefix case-insensitively (`re.IGNORECASE`). -/
def consumeLitCI : List Char → List Char → Option (List Char)
  | [], cs => some cs
  | _ :: _, [] => none
  | p :: ps, c :: cs => if c.toLower = p.toLower then consumeLitCI ps cs else none

/-! ## `_extract_score`: `re.search(r"rated at\s+([0-9.]+)\/10", text, re.IGNORECASE)`
followed by `float` on the captured group, with `-1.0` as the sentinel.

The pattern's pieces have pairwise disjoint character classes (literal text,
`\s+`, `[0-9.]+`, `/10`), so the greedy quantifiers match maximal runs with no
backtracking; the matcher below is therefore an exact model. -/

/-- Attempt the `rated at\s+([0-9.]+)\/10` match at the head of `cs`,
returning the captured group. -/
def ratedAtMatch (cs : List Char) : Option (List Char) :=
  match consumeLitCI ("rated at".data) cs with
  | none => none
  | some r1 =>
    let sp := r1.takeWhile isPySpace
    let r2 := r1.dropWhile isPySpace
    if sp.isEmpty then none
    else
      let num := r2.takeWhile isDigitDot
      let r3 := r2.dropWhile isDigitDot
      if num.isEmpty then none
      else
        match consumeLit ("/10".data) r3 with
        | none => none
        | some _ => some num

/-- `re.search`: try the match at each position, leftmost first. -/
def searchRatedAt : List Char → Option (List Char)
  | [] => none
  | c :: cs =>
    match ratedAtMatch (c :: cs) with
    | some g => some g
    | none => searchRatedAt cs

/-- Digit list to natural number. -/
def digitsToNat (ds : List Char) : Nat :=
  ds.foldl (fun n c => n * 10 + (c.toNat - 48)) 0

/-- Python `float` applied to a string of digits and dots: defined iff there
is at most one dot and at least one digit; the value is the exact decimal. -/
def parseFloat (cs : List Char) : Option ℚ :=
  if cs.all isDigitDot ∧ cs.count '.' ≤ 1 ∧ cs.any Char.isDigit then
    match cs.splitOn '.' with
    | [ds] => some (digitsToNat ds)
    | [as, bs] => some ((digitsToNat as : ℚ) + (digitsToNat bs : ℚ) / (10 : ℚ) ^ bs.length)
    | _ => none
  else none

/-- `SwarmAgents._extract_score` (src/agents.py lines 279-286). -/
def extract_score (text : String) : ℚ :=
  match searchRatedAt text.data with
  | none => -1
  | some g =>
    match parseFloat g with
    | none => -1
    | some q => q

/-! ## Fenced-code extraction
`re.search(r"```python\n(.*?)```", response_content, re.DOTALL)` in
`fixer_node`: first occurrence of the opening fence, then the lazy group runs
to the first closing triple backtick; if no match the raw response is used. -/

/-- Index of the first occurrence of `pat` as a sublist, if any. -/
def findSub (pat : List Char) : List Char → Option Nat
  | [] => if pat.isEmpty then some 0 else none
  | c :: cs =>
    if pat.isPrefixOf (c :: cs) then some 0
    else
      match findSub pat cs with
      | some i => some (i + 1)
      | none => none

/-- Markdown code-block extraction of `fixer_node` (src/agents.py lines 178-184). -/
def extractCode (resp : String) : String :=
  let cs := resp.data
  match findSub ("```python\n".data) cs with
  | none => resp
  | some i =>
    let afterOpen := cs.drop (i + 10)
    match findSub ("```".data) afterOpen with
    | none => resp
    | some j => String.mk (afterOpen.take j)

/-! ## `_func_blocks` and the copy-mode fragment diff (src/agents.py lines 186-211)

The Python regex is
`^def\s+(\w+)\s*\([^)]*\):[\s\S]*?(?=^def\s+\w+\s*\(|\Z)` with `re.MULTILINE`,
iterated by `finditer`.  Again all adjacent pieces have disjoint character
classes, so greedy parts take maximal runs and the lazy tail stops at the
first position where the lookahead (a line-start `def`-header or end of
input) holds. -/

/-- `^` of `re.MULTILINE`: position 0 or just after a newline. -/
def lineStart (cs : List Char) (i : Nat) : Bool :=
  i == 0 || cs.getD (i - 1) ' ' == '\n'

/-- The lookahead `def\s+\w+\s*\(` at the head of a suffix. -/
def headerLite (t : List Char) : Bool :=
  match consumeLit ("def".data) t with
  | none => false
  | some t1 =>
    let sp := t1.takeWhile isPySpace
    let t2 := t1.dropWhile isPySpace
    if sp.isEmpty then false
    else
      let w := t2.takeWhile isWordChar
      let t3 := t2.dropWhile isWordChar
      if w.isEmpty then false
      else
        match t3.dropWhile isPySpace with
        | '(' :: _ => true
        | _ => false

/-- The full header `def\s+(\w+)\s*\([^)]*\):` at the head of a suffix,
returning the captured name and the number of characters consumed. -/
def headerFull (t : List Char) : Option (List Char × Nat) :=
  match consumeLit ("def".data) t with
  | none => none
  | some t1 =>
    let sp := t1.takeWhile isPySpace
    let t2 := t1.dropWhile isPySpace
    if sp.isEmpty then none
    else
      let w := t2.takeWhile isWordChar
      let t3 := t2.dropWhile isWordChar
      if w.isEmpty then none
      else
        let sp2 := t3.takeWhile isPySpace
        let t4 := t3.dropWhile isPySpace
        match t4 with
        | '(' :: t5 =>
          let inner := t5.takeWhile (fun c => c != ')')
          let t6 := t5.dropWhile (fun c => c != ')')
          match t6 with
          | ')' :: ':' :: _ =>
            some (w, 3 + sp.length + w.length + sp2.length + 1 + inner.length + 2)
          | _ => none
        | _ => none

/-- End position of a block: the lazy `[\s\S]*?` stops at the first `k ≥ j`
that is a line start matching the lookahead header, or at end of input. -/
def blockEndAux (cs : List Char) : Nat → Nat → Nat
  | 0, k => k
  | fuel + 1, k =>
    if cs.length ≤ k then cs.length
    else if lineStart cs k && headerLite (cs.drop k) then k
    else blockEndAux cs fuel (k + 1)

/-- `finditer` over the block regex: scan positions left to right, emit
`(name, matched text)` pairs, resume after each match. -/
def funcBlocksAux (cs : List Char) : Nat → Nat → List (List Char × List Char)
  | 0, _ => []
  | fuel + 1, i =>
    if cs.length ≤ i then []
    else if lineStart cs i then
      match headerFull (cs.drop i) with
      | some (name, consumed) =>
        let e := blockEndAux cs (cs.length + 1) (i + consumed)
        (name, (cs.drop i).take (e - i)) :: funcBlocksAux cs fuel e
      | none => funcBlocksAux cs fuel (i + 1)
    else funcBlocksAux cs fuel (i + 1)

/-- Python `str.strip()` (whitespace from both ends). -/
def pyStrip (cs : List Char) : List Char :=
  ((cs.dropWhile isPySpace).reverse.dropWhile isPySpace).reverse

/-- Python dict assignment: update the value in place if the key exists
(keeping its position), else append. -/
def dictInsert (m : List (String × String)) (k v : String) : List (String × String) :=
  if m.any (fun p => p.1 == k) then
    m.map (fun p => if p.1 == k then (p.1, v) else p)
  else m ++ [(k, v)]

/-- `_func_blocks`: `{m.group(1): m.group(0).strip() for m in pat.finditer(src)}`. -/
def func_blocks (src : String) : List (String × String) :=
  (funcBlocksAux src.data (src.data.length + 1) 0).foldl
    (fun acc p => dictInsert acc (String.mk p.1) (String.mk (pyStrip p.2))) []

/-- Dict lookup on the association-list model. -/
def lookupA (m : List (String × String)) (k : String) : Option String :=
  (m.find? (fun p => p.1 == k)).map (fun p => p.2)

/-- `_norm`: `re.sub(r"\s+", "", s)`, i.e. delete every whitespace character. -/
def norm (s : String) : String := String.mk (s.data.filter (fun c => !(isPySpace c)))

/-- Python `"\n\n".join`. -/
def joinSep : List String → String
  | [] => ""
  | x :: xs => xs.foldl (fun a b => a ++ "\n\n" ++ b) x

/-- The changed-block selection of copy mode: blocks of the new partition
whose name also occurs in the original partition and whose whitespace-normal
forms differ, each re-stripped, in new-partition order. -/
def changedBlocks (orig newCode : String) : List String :=
  (func_blocks newCode).filterMap (fun p =>
    match lookupA (func_blocks orig) p.1 with
    | some ob => if norm p.2 ≠ norm ob then some (String.mk (pyStrip p.2.data)) else none
    | none => none)

/-- The content written to the copy-mode destination (src/agents.py lines
198-211): the blank-line-joined changed blocks, or, if that is empty, the
first common-name block, or else the first block of the new partition. -/
def fragmentContent (orig newCode : String) : String :=
  let nm := func_blocks newCode
  let c := joinSep (changedBlocks orig newCode)
  if c = "" then
    let inter := nm.filterMap (fun p =>
      if (lookupA (func_blocks orig) p.1).isSome then some (String.mk (pyStrip p.2.data)) else none)
    match inter with
    | [] => String.mk (pyStrip (((nm.head?.map (fun p => p.2)).getD "").data))
    | x :: _ => x
  else c

/-! ## Data model: `SwarmState` (src/state.py) and the orchestration graph

`test_results` starts as the empty dict `{}` and is modelled as
`Option TestResult` (`none` = the empty dict, on which `.get("success", ...)`
falls back to the default).  `current_file_path` can be set to `None` by
`next_file_node` and is modelled as `Option String`.  The fields `messages`
(never touched) and prompt texts are not modelled; prompts only feed the LLM
oracle, which is indexed by call count. -/

/-- Result of `SwarmTools.run_pytest` (src/tools.py lines 74-93). -/
structure TestResult where
  success : Bool
  output : String
  return_code : Int
deriving DecidableEq, Repr

/-- One element of the `results` list appended by `fixer_node`. -/
structure RepairEntry where
  original_path : String
  dest_path : String
  mode : String
  before_score : ℚ
  after_score : ℚ
  status : String
deriving Repr

/-- `SwarmState` (src/state.py), minus `messages` which no node reads or
writes meaningfully. -/
structure SwarmState where
  target_dir : String
  files : List String
  current_file_index : Nat
  current_file_path : Option String
  current_file_content : String
  pylint_report : String
  refactoring_plan : String
  test_results : Option TestResult
  iteration_count : Nat
  max_iterations : Nat
  status : String
  cooldown_seconds : Nat
  disable_llm : Bool
  output_mode : String
  output_dir : String
  results : List RepairEntry

/-- External collaborators, as oracles indexed by per-kind call counts:
file reads, pylint runs, LLM invocations (`none` = the exception branch of
`_safe_llm_invoke`), pytest runs. -/
structure Env where
  read : Nat → String
  pylint : Nat → String
  llm : Nat → Option String
  pytest : Nat → TestResult

/-- The graph nodes: `manager`, `auditor`, `fixer`, `judge`,
`next_file_processor`, plus the terminal `END`. -/
inductive Phase where
  | manager
  | auditor
  | fixer
  | judge
  | nextFile
  | done
deriving DecidableEq, Repr

/-- A machine configuration: the swarm state, the node about to run, ghost
call counters for each oracle, the log of file writes, and ghost counters of
stage executions. -/
structure Machine where
  st : SwarmState
  phase : Phase
  llmCalls : Nat
  readCalls : Nat
  pylintCalls : Nat
  pytestCalls : Nat
  writes : List (String × String)
  auditExecs : Nat
  fixExecs : Nat
  judgeExecs : Nat

/-- `auditor_node` (src/agents.py lines 41-104).  It always reads the file
and runs pylint; with `disable_llm` it returns the deterministic fallback
plan with status `LLM_DISABLED`; otherwise it invokes the LLM, degrading to
the fallback plan and status `LLM_FAILURE` on failure.  On LLM success the
returned update carries no `status` key, so `status` is left unchanged. -/
def auditorStep (env : Env) (m : Machine) : Machine :=
  let s := m.st
  let code := env.read m.readCalls
  let pl := env.pylint m.pylintCalls
  if s.disable_llm then
    { m with
      st := { s with
        refactoring_plan := "LLM disabled. Apply pylint recommendations, add docstrings/tests.\n" ++ pl,
        current_file_content := code, pylint_report := pl, status := "LLM_DISABLED" },
      phase := Phase.fixer, readCalls := m.readCalls + 1, pylintCalls := m.pylintCalls + 1,
      auditExecs := m.auditExecs + 1 }
  else
    match env.llm m.llmCalls with
    | none =>
      { m with
        st := { s with
          refactoring_plan := "LLM unavailable. Apply pylint recommendations and add docstrings/tests.\n" ++ pl,
          current_file_content := code, pylint_report := pl, status := "LLM_FAILURE" },
        phase := Phase.fixer, llmCalls := m.llmCalls + 1,
        readCalls := m.readCalls + 1, pylintCalls := m.pylintCalls + 1,
        auditExecs := m.auditExecs + 1 }
    | some plan =>
      { m with
        st := { s with refactoring_plan := plan, current_file_content := code, pylint_report := pl },
        phase := Phase.fixer, llmCalls := m.llmCalls + 1,
        readCalls := m.readCalls + 1, pylintCalls := m.pylintCalls + 1,
        auditExecs := m.auditExecs + 1 }

/-- Destination path of copy mode:
`os.path.join(target_dir, output_dir, os.path.relpath(current_file, target_dir))`,
with the path functions abstracted to string concatenation / prefix removal. -/
def fixDest (s : SwarmState) : String :=
  let cur := s.current_file_path.getD ""
  let rel := if (s.target_dir ++ "/").isPrefixOf cur
             then cur.drop (s.target_dir.length + 1)
             else cur
  s.target_dir ++ "/" ++ s.output_dir ++ "/" ++ rel

/-- `fixer_node` (src/agents.py lines 106-238).  Disabled: unchanged content,
status `LLM_DISABLED`, no model call, no write, no result entry.  Prior
`LLM_FAILURE`: unchanged content, no model call, no write, no result entry,
no `status` key in the update.  Otherwise one LLM call; on failure status
becomes `LLM_FAILURE` with unchanged content; on success the fenced code is
extracted and applied per the output mode, pylint re-runs on the written
path, and one result entry is appended. -/
def fixerStep (env : Env) (m : Machine) : Machine :=
  let s := m.st
  if s.disable_llm then
    { m with
      st := { s with status := "LLM_DISABLED" },
      phase := Phase.judge, fixExecs := m.fixExecs + 1 }
  else if s.status = "LLM_FAILURE" then
    { m with phase := Phase.judge, fixExecs := m.fixExecs + 1 }
  else
    match env.llm m.llmCalls with
    | none =>
      { m with
        st := { s with status := "LLM_FAILURE" },
        phase := Phase.judge, llmCalls := m.llmCalls + 1, fixExecs := m.fixExecs + 1 }
    | some resp =>
      let new_code := extractCode resp
      if s.output_mode = "copy" then
        let dest := fixDest s
        let content := fragmentContent s.current_file_content new_code
        let upl := env.pylint m.pylintCalls
        let entry : RepairEntry :=
          { original_path := s.current_file_path.getD "", dest_path := dest, mode := "copy",
            before_score := extract_score s.pylint_report,
            after_score := extract_score upl, status := "UPDATED" }
        { m with
          st := { s with
                  current_file_content := new_code, pylint_report := upl,
                  results := s.results ++ [entry] },
          phase := Phase.judge, llmCalls := m.llmCalls + 1, pylintCalls := m.pylintCalls + 1,
          writes := m.writes ++ [(dest, content)], fixExecs := m.fixExecs + 1 }
      else
        let path := s.current_file_path.getD ""
        let upl := env.pylint m.pylintCalls
        let entry : RepairEntry :=
          { original_path := path, dest_path := path, mode := "overwrite",
            before_score := extract_score s.pylint_report,
            after_score := extract_score upl, status := "UPDATED" }
        { m with
          st := { s with
                  current_file_content := new_code, pylint_report := upl,
                  results := s.results ++ [entry] },
          phase := Phase.judge, llmCalls := m.llmCalls + 1, pylintCalls := m.pylintCalls + 1,
          writes := m.writes ++ [(path, new_code)], fixExecs := m.fixExecs + 1 }

/-- `judge_router` (src/graph.py lines 27-38), as run by the framework on the
state already merged with `judge_node`'s update: `true` = `next_file`,
`false` = `retry`. -/
def judgeRoute (s : SwarmState) : Bool :=
  if s.disable_llm then true
  else if s.status = "LLM_FAILURE" then true
  else if ((s.test_results.map TestResult.success).getD false) || (s.max_iterations ≤ s.iteration_count) then true
  else false

/-- `judge_node` (src/agents.py lines 240-277) followed by `judge_router`:
run pytest, force `success := True` in copy mode (the forced value is written
back into the stored result), increment `iteration_count`, then route. -/
def judgeStep (env : Env) (m : Machine) : Machine :=
  let s := m.st
  let r := env.pytest m.pytestCalls
  let success := if s.output_mode = "copy" then true else r.success
  let s2 := { s with
    test_results := some { r with success := success },
    iteration_count := s.iteration_count + 1 }
  { m with
    st := s2,
    phase := if judgeRoute s2 then Phase.nextFile else Phase.fixer,
    pytestCalls := m.pytestCalls + 1, judgeExecs := m.judgeExecs + 1 }

/-- `next_file_node` (src/graph.py lines 41-50): advance the cursor, zero the
iteration counter, recompute `current_file_path` (or `None` past the end).
No other key appears in the returned update. -/
def nextFileUpd (s : SwarmState) : SwarmState :=
  { s with
    current_file_index := s.current_file_index + 1,
    iteration_count := 0,
    current_file_path :=
      if s.current_file_index + 1 < s.files.length
      then some (s.files.getD (s.current_file_index + 1) "")
      else none }

/-- One transition of the compiled graph: dispatch on the node about to run;
`manager_router` (src/graph.py lines 19-24) decides between `auditor` and
`END`.  The terminal configuration is absorbing. -/
def step (env : Env) (m : Machine) : Machine :=
  match m.phase with
  | Phase.manager =>
    if m.st.current_file_index < m.st.files.length
    then { m with phase := Phase.auditor }
    else { m with phase := Phase.done }
  | Phase.auditor => auditorStep env m
  | Phase.fixer => fixerStep env m
  | Phase.judge => judgeStep env m
  | Phase.nextFile => { m with st := nextFileUpd m.st, phase := Phase.manager }
  | Phase.done => m

/-- Iterated transitions. -/
def run (env : Env) (m : Machine) : Nat → Machine
  | 0 => m
  | n + 1 => step env (run env m n)

/-- The initial configuration built by `main.py`: index 0, first file as
current path (`main` exits before the graph runs when the worklist is empty),
empty reports, empty `test_results` dict, iteration 0, status `STARTING`. -/
def initMachine (files : List String) (target : String) (maxIter : Nat) (dis : Bool)
    (mode outd : String) : Machine :=
  { st := { target_dir := target, files := files, current_file_index := 0,
            current_file_path := files.head?,
            current_file_content := "", pylint_report := "", refactoring_plan := "",
            test_results := none, iteration_count := 0, max_iterations := maxIter,
            status := "STARTING", cooldown_seconds := 0, disable_llm := dis,
            output_mode := mode, output_dir := outd, results := [] },
    phase := Phase.manager, llmCalls := 0, readCalls := 0, pylintCalls := 0,
    pytestCalls := 0, writes := [], auditExecs := 0, fixExecs := 0, judgeExecs := 0 }

/-- A step from the judge node that loops back to the fixer (`"retry"`). -/
def isRetry (env : Env) (m : Machine) : Bool :=
  decide (m.phase = Phase.judge) && decide ((step env m).phase = Phase.fixer)

/-- Number of retry transitions among the first `n` steps from `m`. -/
def countRetries (env : Env) (m : Machine) (n : Nat) : Nat :=
  ((List.range n).filter (fun k => isRetry env (run env m k))).length

/-- Concrete oracle for the end-to-end scenarios: pytest always fails, the
LLM always answers, reads and pylint are fixed strings. -/
def failEnv : Env :=
  { read := fun _ => "x = 1\n", pylint := fun _ => "",
    llm := fun _ => some "y = 2\n",
    pytest := fun _ => { success := false, output := "FAILED", return_code := 1 } }

/-- The C2/C7/C8 scenario start: one file, `max_iterations = 2`, LLM enabled,
overwrite mode. -/
def scenarioMachine : Machine := initMachine ["a.py"] "t" 2 false "overwrite" "refactored"

/-- A configuration at the judge node in copy mode. -/
def judgeCopyMachine : Machine :=
  { scenarioMachine with
    st := { scenarioMachine.st with output_mode := "copy" },
    phase := Phase.judge }

/-- The inference-disabled scenario start: one file, defaults otherwise. -/
def disabledMachine : Machine := initMachine ["a.py"] "t" 10 true "overwrite" "refactored"

/-- A configuration at the fixer node after a recorded inference failure. -/
def stuckMachine : Machine :=
  { scenarioMachine with
    st := { scenarioMachine.st with status := "LLM_FAILURE" },
    phase := Phase.fixer }

/-- A state carrying a failed test result, about to go through
`next_file_node`. -/
def carryState : SwarmState :=
  { target_dir := "t", files := ["a.py", "b.py"], current_file_index := 0,
    current_file_path := some "a.py", current_file_content := "x = 1\n",
    pylint_report := "", refactoring_plan := "", iteration_count := 2,
    test_results := some { success := false, output := "boom", return_code := 1 },
    max_iterations := 10, status := "STARTING", cooldown_seconds := 0,
    disable_llm := false, output_mode := "overwrite", output_dir := "refactored",
    results := [] }

/-- Reachability invariant of the graph: the cursor never passes the end of
the worklist; the per-file stages only run with a file in range; the
iteration counter is 0 at the manager and auditor, at most `max_iterations`
at the fixer; the terminal node is only reached with the worklist spent. -/
def Reach (m : Machine) : Prop :=
  m.st.current_file_index ≤ m.st.files.length ∧
  ((m.phase = Phase.auditor ∨ m.phase = Phase.fixer ∨ m.phase = Phase.judge ∨
    m.phase = Phase.nextFile) → m.st.current_file_index < m.st.files.length) ∧
  ((m.phase = Phase.manager ∨ m.phase = Phase.auditor) → m.st.iteration_count = 0) ∧
  (m.phase = Phase.fixer → m.st.iteration_count ≤ m.st.max_iterations) ∧
  (m.phase = Phase.done → m.st.files.length ≤ m.st.current_file_index)

/-- Per-phase component of the termination measure. -/
def phaseCost (maxI iter : Nat) : Phase → Nat
  | Phase.done => 0
  | Phase.nextFile => 1
  | Phase.judge => 2 * (maxI + 1 - iter) + 2
  | Phase.fixer => 2 * (maxI + 1 - iter) + 3
  | Phase.auditor => 2 * (maxI + 1) + 4
  | Phase.manager => 2 * (maxI + 1) + 5

/-- Termination measure: lexicographic in (files remaining, position within
the per-file loop), flattened into one natural number. -/
def mu (m : Machine) : Nat :=
  (m.st.files.length - m.st.current_file_index) * (2 * (m.st.max_iterations + 1) + 6) +
    phaseCost m.st.max_iterations m.st.iteration_count m.phase

/-- Per-phase component of the fixer budget. -/
def budgetCost (maxI iter r : Nat) : Phase → Nat
  | Phase.done => 0
  | Phase.manager => r * (maxI + 1)
  | Phase.auditor => (r - 1) * (maxI + 1) + (maxI + 1 - iter)
  | Phase.fixer => (r - 1) * (maxI + 1) + (maxI + 1 - iter)
  | Phase.judge => (r - 1) * (maxI + 1) + (maxI - iter)
  | Phase.nextFile => (r - 1) * (maxI + 1)

/-- Potential bounding the fixer executions still to come: with the
invariant, `fixExecs + fixBudget` never increases along a run. -/
def fixBudget (m : Machine) : Nat :=
  budgetCost m.st.max_iterations m.st.iteration_count
    (m.st.files.length - m.st.current_file_index) m.phase

/-- Invariant of inference-disabled runs: no LLM call is ever made and the
iteration counter is 0 except momentarily at the `next_file` node, where it
is 1. -/
def DisabledInv (m : Machine) : Prop :=
  m.st.disable_llm = true →
    (m.llmCalls = 0 ∧ m.st.iteration_count ≤ 1 ∧
      (m.phase ≠ Phase.nextFile → m.st.iteration_count = 0))

/-! ## Basic lemmas about score extraction -/

/-- A successfully parsed `[0-9.]+` group is a nonnegative rational. -/
lemma parseFloat_nonneg {cs : List Char} {q : ℚ} (h : parseFloat cs = some q) : 0 ≤ q := by
  rw [parseFloat] at h
  split at h
  · split at h
    · injection h with h; subst h; positivity
    · injection h with h; subst h; positivity
    · exact absurd h (by simp)
  · exact absurd h (by simp)

/-- Score extraction returns the sentinel or a nonnegative value. -/
lemma extract_score_cases (t : String) : extract_score t = -1 ∨ 0 ≤ extract_score t := by
  cases h : searchRatedAt t.data with
  | none => left; simp [extract_score, h]
  | some g =>
    cases h2 : parseFloat g with
    | none => left; simp [extract_score, h, h2]
    | some q =>
      right
      simp only [extract_score, h, h2]
      exact parseFloat_nonneg h2

/-! ## Field-effect lemmas for the graph nodes -/

/-- What the auditor leaves untouched, and its unconditional effects. -/
lemma auditorStep_proj (env : Env) (m : Machine) :
    (auditorStep env m).phase = Phase.fixer ∧
    (auditorStep env m).st.current_file_index = m.st.current_file_index ∧
    (auditorStep env m).st.iteration_count = m.st.iteration_count ∧
    (auditorStep env m).st.max_iterations = m.st.max_iterations ∧
    (auditorStep env m).st.files = m.st.files ∧
    (auditorStep env m).st.disable_llm = m.st.disable_llm ∧
    (auditorStep env m).st.results = m.st.results ∧
    (auditorStep env m).st.test_results = m.st.test_results ∧
    (auditorStep env m).fixExecs = m.fixExecs ∧
    (auditorStep env m).writes = m.writes ∧
    (auditorStep env m).auditExecs = m.auditExecs + 1 ∧
    (auditorStep env m).judgeExecs = m.judgeExecs := by
  unfold auditorStep
  rcases h : env.llm m.llmCalls with _ | p <;> simp only [h] <;> split <;> simp

/-- What the fixer leaves untouched, and its unconditional effects. -/
lemma fixerStep_proj (env : Env) (m : Machine) :
    (fixerStep env m).phase = Phase.judge ∧
    (fixerStep env m).st.current_file_index = m.st.current_file_index ∧
    (fixerStep env m).st.iteration_count = m.st.iteration_count ∧
    (fixerStep env m).st.max_iterations = m.st.max_iterations ∧
    (fixerStep env m).st.files = m.st.files ∧
    (fixerStep env m).st.disable_llm = m.st.disable_llm ∧
    (fixerStep env m).st.test_results = m.st.test_results ∧
    (fixerStep env m).fixExecs = m.fixExecs + 1 ∧
    (fixerStep env m).auditExecs = m.auditExecs ∧
    (fixerStep env m).judgeExecs = m.judgeExecs := by
  unfold fixerStep
  rcases h : env.llm m.llmCalls with _ | p <;> simp only [h]
  all_goals split <;> (try split) <;> (try split) <;> simp

/-- The judge's effects: it stores the (possibly forced) pytest result,
increments the iteration counter, and routes on the updated state. -/
lemma judgeStep_proj (env : Env) (m : Machine) :
    (judgeStep env m).phase =
      (if judgeRoute (judgeStep env m).st then Phase.nextFile else Phase.fixer) ∧
    (judgeStep env m).st.iteration_count = m.st.iteration_count + 1 ∧
    (judgeStep env m).st.current_file_index = m.st.current_file_index ∧
    (judgeStep env m).st.max_iterations = m.st.max_iterations ∧
    (judgeStep env m).st.files = m.st.files ∧
    (judgeStep env m).st.disable_llm = m.st.disable_llm ∧
    (judgeStep env m).st.status = m.st.status ∧
    (judgeStep env m).st.results = m.st.results ∧
    (judgeStep env m).st.output_mode = m.st.output_mode ∧
    (judgeStep env m).llmCalls = m.llmCalls ∧
    (judgeStep env m).fixExecs = m.fixExecs ∧
    (judgeStep env m).auditExecs = m.auditExecs ∧
    (judgeStep env m).judgeExecs = m.judgeExecs + 1 ∧
    (judgeStep env m).writes = m.writes := by
  unfold judgeStep
  simp

/-- The cursor never moves backwards in a single transition. -/
lemma step_index_mono (env : Env) (m : Machine) :
    m.st.current_file_index ≤ (step env m).st.current_file_index := by
  cases h : m.phase <;> simp [step, h]
  · split <;> simp
  · exact le_of_eq (auditorStep_proj env m).2.1.symm
  · exact le_of_eq (fixerStep_proj env m).2.1.symm
  · exact le_of_eq (judgeStep_proj env m).2.2.1.symm
  · simp [nextFileUpd]

/-- `max_iterations` is never written. -/
lemma step_max_eq (env : Env) (m : Machine) :
    (step env m).st.max_iterations = m.st.max_iterations := by
  cases h : m.phase <;> simp [step, h]
  · split <;> simp
  · exact (auditorStep_proj env m).2.2.2.1
  · exact (fixerStep_proj env m).2.2.2.1
  · exact (judgeStep_proj env m).2.2.2.1
  · simp [nextFileUpd]

/-- The worklist is never written. -/
lemma step_files_eq (env : Env) (m : Machine) :
    (step env m).st.files = m.st.files := by
  cases h : m.phase <;> simp [step, h]
  · split <;> simp
  · exact (auditorStep_proj env m).2.2.2.2.1
  · exact (fixerStep_proj env m).2.2.2.2.1
  · exact (judgeStep_proj env m).2.2.2.2.1
  · simp [nextFileUpd]

/-- The disable flag is never written. -/
lemma step_disable_eq (env : Env) (m : Machine) :
    (step env m).st.disable_llm = m.st.disable_llm := by
  cases h : m.phase <;> simp [step, h]
  · split <;> simp
  · exact (auditorStep_proj env m).2.2.2.2.2.1
  · exact (fixerStep_proj env m).2.2.2.2.2.1
  · exact (judgeStep_proj env m).2.2.2.2.2.1
  · simp [nextFileUpd]

/-- Unfolding a run from the far end. -/
lemma run_shift (env : Env) (m : Machine) (n : Nat) :
    run env m (n + 1) = run env (step env m) n := by
  induction n with
  | zero => rfl
  | succ k ih => rw [run, ih, run]

/-! ## The judge's routing rule and the retry bound -/

/-- `judge_router` sends to `next_file` exactly under the disjunction of its
four conditions, in the order the code tests them. -/
lemma judgeRoute_iff (s : SwarmState) :
    judgeRoute s = true ↔
      (s.disable_llm = true ∨ s.status = "LLM_FAILURE" ∨
        (s.test_results.map TestResult.success).getD false = true ∨
        s.max_iterations ≤ s.iteration_count) := by
  unfold judgeRoute
  by_cases h1 : s.disable_llm = true <;>
    by_cases h2 : s.status = "LLM_FAILURE" <;>
      by_cases h3 : (s.test_results.map TestResult.success).getD false = true <;>
        by_cases h4 : s.max_iterations ≤ s.iteration_count <;>
          simp [h1, h2, h3, h4]

/-- A judge transition either advances or retries; it always increments the
iteration counter; and on a retry the freshly incremented counter is still
below `max_iterations`. -/
lemma judge_step_cases (env : Env) (m : Machine) (h : m.phase = Phase.judge) :
    ((step env m).phase = Phase.fixer ∨ (step env m).phase = Phase.nextFile) ∧
    (step env m).st.iteration_count = m.st.iteration_count + 1 ∧
    ((step env m).phase = Phase.fixer →
      (step env m).st.iteration_count < m.st.max_iterations) := by
  have p := judgeStep_proj env m
  have hs : step env m = judgeStep env m := by rw [step, h]
  rw [hs]
  refine ⟨?_, p.2.1, ?_⟩
  · rw [p.1]; split
    · exact Or.inr rfl
    · exact Or.inl rfl
  · intro hf
    rw [p.1] at hf
    split at hf
    · exact absurd hf (by simp)
    · rename_i hroute
      have hfalse : judgeRoute (judgeStep env m).st = false := by
        revert hroute; cases judgeRoute (judgeStep env m).st <;> simp
      have := judgeRoute_iff (judgeStep env m).st
      rw [hfalse] at this
      simp only [Bool.false_eq_true, false_iff, not_or, not_le] at this
      have hlt := this.2.2.2
      rw [p.2.1, p.2.2.2.1] at hlt
      rw [p.2.1]
      exact hlt

/-- The iteration counter never decreases except at the `next_file` node. -/
lemma step_iter_mono (env : Env) (m : Machine) (h : m.phase ≠ Phase.nextFile) :
    m.st.iteration_count ≤ (step env m).st.iteration_count := by
  cases hp : m.phase <;> simp [step, hp]
  · split <;> simp
  · exact le_of_eq (auditorStep_proj env m).2.2.1.symm
  · exact le_of_eq (fixerStep_proj env m).2.2.1.symm
  · rw [(judgeStep_proj env m).2.1]; omega
  · exact absurd hp h

/-- `max_iterations` is constant along a run. -/
lemma run_max_eq (env : Env) (m : Machine) (n : Nat) :
    (run env m n).st.max_iterations = m.st.max_iterations := by
  induction n with
  | zero => rfl
  | succ k ih => rw [run, step_max_eq, ih]

/-- One-step unfolding of the retry count. -/
lemma countRetries_succ (env : Env) (m : Machine) (n : Nat) :
    countRetries env m (n + 1) =
      countRetries env m n + (if isRetry env (run env m n) then 1 else 0) := by
  unfold countRetries
  rw [List.range_succ, List.filter_append, List.length_append]
  simp only [List.filter_cons, List.filter_nil]
  split <;> simp

/-- While no `next_file` transition occurs, the number of retries is bounded
by the current iteration counter, and never exceeds the retry budget. -/
lemma countRetries_le (env : Env) (m : Machine) (n : Nat)
    (h0 : m.st.iteration_count = 0)
    (hn : ∀ k, k < n → (run env m k).phase ≠ Phase.nextFile) :
    countRetries env m n ≤ (run env m n).st.iteration_count ∧
      countRetries env m n ≤ m.st.max_iterations := by
  induction n with
  | zero =>
    constructor
    · simp [countRetries, run, h0]
    · simp [countRetries]
  | succ k ih =>
    have hk : ∀ j, j < k → (run env m j).phase ≠ Phase.nextFile :=
      fun j hj => hn j (Nat.lt_succ_of_lt hj)
    obtain ⟨ih1, ih2⟩ := ih hk
    rw [countRetries_succ]
    by_cases hr : isRetry env (run env m k) = true
    · have hj : (run env m k).phase = Phase.judge := by
        have := hr
        unfold isRetry at this
        simp only [Bool.and_eq_true, decide_eq_true_eq] at this
        exact this.1
      have hf : (step env (run env m k)).phase = Phase.fixer := by
        have := hr
        unfold isRetry at this
        simp only [Bool.and_eq_true, decide_eq_true_eq] at this
        exact this.2
      have hj2 := judge_step_cases env (run env m k) hj
      have hinc := hj2.2.1
      have hlt := hj2.2.2 hf
      have hmax : (run env m k).st.max_iterations = m.st.max_iterations :=
        run_max_eq env m k
      rw [hr, if_pos rfl]
      constructor
      · show countRetries env m k + 1 ≤ (step env (run env m k)).st.iteration_count
        omega
      · have : (step env (run env m k)).st.iteration_count < m.st.max_iterations := by
          rw [← hmax]; exact hlt
        show countRetries env m k + 1 ≤ m.st.max_iterations
        omega
    · have hr' : isRetry env (run env m k) = false := by
        revert hr; cases isRetry env (run env m k) <;> simp
      rw [hr', if_neg (by simp)]
      have hmono := step_iter_mono env (run env m k) (hn k (Nat.lt_succ_self k))
      constructor
      · show countRetries env m k + 0 ≤ (step env (run env m k)).st.iteration_count
        omega
      · omega

/-! ## Reachability invariant, termination measure, fixer budget -/

/-- `Reach` is preserved by every transition. -/
lemma reach_step (env : Env) (m : Machine) (h : Reach m) : Reach (step env m) := by
  obtain ⟨h1, h2, h3, h4, h5⟩ := h
  cases hp : m.phase
  case manager =>
    by_cases hc : m.st.current_file_index < m.st.files.length
    · simp only [step, hp, if_pos hc]
      refine ⟨h1, fun _ => hc, fun _ => h3 (Or.inl hp), ?_, ?_⟩ <;> simp
    · simp only [step, hp, if_neg hc]
      refine ⟨h1, ?_, ?_, ?_, fun _ => Nat.le_of_not_lt hc⟩ <;> simp
  case auditor =>
    have p := auditorStep_proj env m
    have hidx := h2 (Or.inl hp)
    have hit := h3 (Or.inr hp)
    simp only [step, hp]
    refine ⟨?_, fun _ => ?_, fun hcase => ?_, fun _ => ?_, fun hcase => ?_⟩
    · rw [p.2.1, p.2.2.2.2.1]; omega
    · rw [p.2.1, p.2.2.2.2.1]; exact hidx
    · rw [p.1] at hcase; simp at hcase
    · rw [p.2.2.1, p.2.2.2.1]; omega
    · rw [p.1] at hcase; simp at hcase
  case fixer =>
    have p := fixerStep_proj env m
    have hidx := h2 (Or.inr (Or.inl hp))
    simp only [step, hp]
    refine ⟨?_, fun _ => ?_, fun hcase => ?_, fun hcase => ?_, fun hcase => ?_⟩
    · rw [p.2.1, p.2.2.2.2.1]; omega
    · rw [p.2.1, p.2.2.2.2.1]; exact hidx
    · rw [p.1] at hcase; simp at hcase
    · rw [p.1] at hcase; simp at hcase
    · rw [p.1] at hcase; simp at hcase
  case judge =>
    have p := judgeStep_proj env m
    have hidx := h2 (Or.inr (Or.inr (Or.inl hp)))
    have hc := judge_step_cases env m hp
    have hs : step env m = judgeStep env m := by rw [step, hp]
    refine ⟨?_, fun _ => ?_, fun hcase => ?_, fun hf => ?_, fun hd => ?_⟩ <;> rw [hs]
    · rw [p.2.2.1, p.2.2.2.2.1]; omega
    · rw [p.2.2.1, p.2.2.2.2.1]; exact hidx
    · rw [hs, p.1] at hcase
      revert hcase
      split <;> simp
    · rw [p.2.2.2.1]
      have hlt := hc.2.2 (by rw [hs] at hf ⊢; exact hf)
      rw [hs] at hlt
      omega
    · rw [hs, p.1] at hd
      revert hd
      split <;> simp
  case nextFile =>
    have hidx := h2 (Or.inr (Or.inr (Or.inr hp)))
    simp only [step, hp]
    refine ⟨?_, fun hcase => ?_, fun _ => ?_, fun hcase => ?_, fun hcase => ?_⟩
    · show (nextFileUpd m.st).current_file_index ≤ (nextFileUpd m.st).files.length
      simp only [nextFileUpd]
      omega
    · simp at hcase
    · show (nextFileUpd m.st).iteration_count = 0
      rfl
    · simp at hcase
    · simp at hcase
  case done =>
    simp only [step, hp]
    exact ⟨h1, h2, h3, h4, h5⟩

/-- `Reach` holds along every run from a configuration satisfying it. -/
lemma reach_run (env : Env) (m : Machine) (h : Reach m) (n : Nat) :
    Reach (run env m n) := by
  induction n with
  | zero => exact h
  | succ k ih => exact reach_step env (run env m k) ih

/-- The initial configuration satisfies `Reach`. -/
lemma reach_init (files : List String) (target : String) (maxIter : Nat) (dis : Bool)
    (mode outd : String) : Reach (initMachine files target maxIter dis mode outd) := by
  refine ⟨?_, ?_, ?_, ?_, ?_⟩ <;> simp [initMachine]

/-- The measure strictly decreases on every non-terminal transition. -/
lemma mu_step (env : Env) (m : Machine) (h : Reach m) (hd : m.phase ≠ Phase.done) :
    mu (step env m) < mu m := by
  obtain ⟨h1, h2, h3, h4, h5⟩ := h
  cases hp : m.phase
  case manager =>
    by_cases hc : m.st.current_file_index < m.st.files.length
    · simp only [step, hp, if_pos hc, mu, phaseCost]
      exact Nat.add_lt_add_left (by omega) _
    · simp only [step, hp, if_neg hc, mu, phaseCost]
      have hr : m.st.files.length - m.st.current_file_index = 0 := by omega
      rw [hr]
      omega
  case auditor =>
    have p := auditorStep_proj env m
    have hs : step env m = auditorStep env m := by rw [step, hp]
    rw [hs]
    simp only [mu, p.1, p.2.1, p.2.2.1, p.2.2.2.1, p.2.2.2.2.1, hp, phaseCost]
    exact Nat.add_lt_add_left (by omega) _
  case fixer =>
    have p := fixerStep_proj env m
    have hs : step env m = fixerStep env m := by rw [step, hp]
    rw [hs]
    simp only [mu, p.1, p.2.1, p.2.2.1, p.2.2.2.1, p.2.2.2.2.1, hp, phaseCost]
    exact Nat.add_lt_add_left (by omega) _
  case judge =>
    have p := judgeStep_proj env m
    have hc := judge_step_cases env m hp
    have hs : step env m = judgeStep env m := by rw [step, hp]
    rcases hc.1 with hf | hn
    · have hlt := hc.2.2 hf
      rw [hs] at hf hlt
      rw [p.2.1] at hlt
      rw [hs]
      simp only [mu, hf, p.2.1, p.2.2.1, p.2.2.2.1, p.2.2.2.2.1, hp, phaseCost]
      exact Nat.add_lt_add_left (by omega) _
    · rw [hs] at hn
      rw [hs]
      simp only [mu, hn, p.2.1, p.2.2.1, p.2.2.2.1, p.2.2.2.2.1, hp, phaseCost]
      exact Nat.add_lt_add_left (by omega) _
  case nextFile =>
    have hidx := h2 (Or.inr (Or.inr (Or.inr hp)))
    simp only [step, hp, mu, nextFileUpd, phaseCost]
    obtain ⟨a, ha⟩ : ∃ a, m.st.files.length - m.st.current_file_index = a + 1 :=
      ⟨m.st.files.length - m.st.current_file_index - 1, by omega⟩
    have ha2 : m.st.files.length - (m.st.current_file_index + 1) = a := by omega
    rw [ha2, ha, Nat.succ_mul a (2 * (m.st.max_iterations + 1) + 6)]
    omega
  case done => exact absurd hp hd

/-- From any configuration satisfying the invariant, the run reaches the
terminal node within `mu` steps. -/
lemma run_reaches_done (env : Env) :
    ∀ n m, Reach m → mu m ≤ n → ∃ k, k ≤ n ∧ (run env m k).phase = Phase.done := by
  intro n
  induction n with
  | zero =>
    intro m hR hmu
    refine ⟨0, le_refl 0, ?_⟩
    cases hp : m.phase <;> simp only [mu, hp, phaseCost] at hmu <;> first | exact hp | omega
  | succ k ih =>
    intro m hR hmu
    by_cases hd : m.phase = Phase.done
    · exact ⟨0, Nat.zero_le _, hd⟩
    · have hdec := mu_step env m hR hd
      obtain ⟨j, hj, hph⟩ := ih (step env m) (reach_step env m hR) (by omega)
      exact ⟨j + 1, by omega, by rw [run_shift]; exact hph⟩

/-- The sum of executed and budgeted fixer invocations never increases. -/
lemma fixBudget_step (env : Env) (m : Machine) (h : Reach m) :
    (step env m).fixExecs + fixBudget (step env m) ≤ m.fixExecs + fixBudget m := by
  obtain ⟨h1, h2, h3, h4, h5⟩ := h
  cases hp : m.phase
  case manager =>
    by_cases hc : m.st.current_file_index < m.st.files.length
    · have hit := h3 (Or.inl hp)
      simp only [step, hp, if_pos hc, fixBudget, budgetCost, hit]
      obtain ⟨a, ha⟩ : ∃ a, m.st.files.length - m.st.current_file_index = a + 1 :=
        ⟨m.st.files.length - m.st.current_file_index - 1, by omega⟩
      rw [ha]
      simp only [Nat.add_sub_cancel]
      rw [Nat.succ_mul]
      omega
    · simp only [step, hp, if_neg hc, fixBudget, budgetCost]
      omega
  case auditor =>
    have p := auditorStep_proj env m
    have hs : step env m = auditorStep env m := by rw [step, hp]
    rw [hs]
    simp only [fixBudget, budgetCost, p.1, p.2.1, p.2.2.1, p.2.2.2.1, p.2.2.2.2.1,
      p.2.2.2.2.2.2.2.2.1, hp]
    omega
  case fixer =>
    have p := fixerStep_proj env m
    have hit := h4 hp
    have hs : step env m = fixerStep env m := by rw [step, hp]
    rw [hs]
    simp only [fixBudget, budgetCost, p.1, p.2.1, p.2.2.1, p.2.2.2.1, p.2.2.2.2.1,
      p.2.2.2.2.2.2.2.1, hp]
    omega
  case judge =>
    have p := judgeStep_proj env m
    have hc := judge_step_cases env m hp
    have hs : step env m = judgeStep env m := by rw [step, hp]
    rcases hc.1 with hf | hn
    · have hlt := hc.2.2 hf
      rw [hs] at hf hlt
      rw [p.2.1] at hlt
      rw [hs]
      simp only [fixBudget, budgetCost, hf, p.2.1, p.2.2.1, p.2.2.2.1, p.2.2.2.2.1,
        p.2.2.2.2.2.2.2.2.2.2.1, hp]
      omega
    · rw [hs] at hn
      rw [hs]
      simp only [fixBudget, budgetCost, hn, p.2.1, p.2.2.1, p.2.2.2.1, p.2.2.2.2.1,
        p.2.2.2.2.2.2.2.2.2.2.1, hp]
      omega
  case nextFile =>
    simp only [step, hp, fixBudget, budgetCost, nextFileUpd]
    rw [show m.st.files.length - (m.st.current_file_index + 1) =
        m.st.files.length - m.st.current_file_index - 1 from by omega]
  case done =>
    simp only [step, hp, fixBudget, budgetCost]
    omega

/-- Budget bound along a whole run. -/
lemma fixBudget_run (env : Env) (m : Machine) (h : Reach m) (n : Nat) :
    (run env m n).fixExecs + fixBudget (run env m n) ≤ m.fixExecs + fixBudget m := by
  induction n with
  | zero => exact le_refl _
  | succ k ih =>
    exact le_trans (fixBudget_step env (run env m k) (reach_run env m h k)) ih

/-! ## Inference-disabled runs -/

/-- With inference disabled, no transition performs an LLM call. -/
lemma step_llm_disabled (env : Env) (m : Machine) (h : m.st.disable_llm = true) :
    (step env m).llmCalls = m.llmCalls := by
  cases hp : m.phase
  case manager => simp only [step, hp]; split <;> rfl
  case auditor => simp [step, hp, auditorStep, h]
  case fixer => simp [step, hp, fixerStep, h]
  case judge =>
    rw [show step env m = judgeStep env m from by rw [step, hp]]
    exact (judgeStep_proj env m).2.2.2.2.2.2.2.2.2.1
  case nextFile => simp [step, hp]
  case done => simp [step, hp]

/-- With inference disabled, the judge always routes to `next_file`. -/
lemma step_judge_disabled (env : Env) (m : Machine) (h : m.st.disable_llm = true)
    (hp : m.phase = Phase.judge) : (step env m).phase = Phase.nextFile := by
  have p := judgeStep_proj env m
  have hs : step env m = judgeStep env m := by rw [step, hp]
  have hroute : judgeRoute (judgeStep env m).st = true :=
    (judgeRoute_iff _).mpr (Or.inl (by rw [p.2.2.2.2.2.1]; exact h))
  rw [hs, p.1, hroute]
  simp

/-- The disabled-run invariant is preserved by every transition. -/
lemma disabledInv_step (env : Env) (m : Machine) (h : DisabledInv m) :
    DisabledInv (step env m) := by
  intro hd
  have hd0 : m.st.disable_llm = true := by rw [← step_disable_eq env m]; exact hd
  obtain ⟨hllm, hle, hzero⟩ := h hd0
  refine ⟨by rw [step_llm_disabled env m hd0, hllm], ?_, ?_⟩
  · cases hp : m.phase
    case manager =>
      have : (step env m).st.iteration_count = m.st.iteration_count := by
        simp only [step, hp]; split <;> rfl
      rw [this, hzero (by simp [hp])]
      omega
    case auditor =>
      rw [show step env m = auditorStep env m from by rw [step, hp]]
      rw [(auditorStep_proj env m).2.2.1, hzero (by simp [hp])]
      omega
    case fixer =>
      rw [show step env m = fixerStep env m from by rw [step, hp]]
      rw [(fixerStep_proj env m).2.2.1, hzero (by simp [hp])]
      omega
    case judge =>
      rw [show step env m = judgeStep env m from by rw [step, hp]]
      rw [(judgeStep_proj env m).2.1, hzero (by simp [hp])]
    case nextFile =>
      have : (step env m).st.iteration_count = 0 := by simp [step, hp, nextFileUpd]
      omega
    case done =>
      have : (step env m).st.iteration_count = m.st.iteration_count := by
        simp only [step, hp]
      rw [this, hzero (by simp [hp])]
      omega
  · intro hne
    cases hp : m.phase
    case manager =>
      have : (step env m).st.iteration_count = m.st.iteration_count := by
        simp only [step, hp]; split <;> rfl
      rw [this]; exact hzero (by simp [hp])
    case auditor =>
      rw [show step env m = auditorStep env m from by rw [step, hp]]
      rw [(auditorStep_proj env m).2.2.1]; exact hzero (by simp [hp])
    case fixer =>
      rw [show step env m = fixerStep env m from by rw [step, hp]]
      rw [(fixerStep_proj env m).2.2.1]; exact hzero (by simp [hp])
    case judge =>
      exact absurd (step_judge_disabled env m hd0 hp) hne
    case nextFile =>
      simp [step, hp, nextFileUpd]
    case done =>
      have : (step env m).st.iteration_count = m.st.iteration_count := by
        simp only [step, hp]
      rw [this]; exact hzero (by simp [hp])

/-! ## Appending of repair records -/

/-- The fixer only ever appends to `results`. -/
lemma fixerStep_results_append (env : Env) (m : Machine) :
    ∃ t, (fixerStep env m).st.results = m.st.results ++ t := by
  unfold fixerStep
  by_cases hd : m.st.disable_llm = true
  · exact ⟨[], by simp [hd]⟩
  · by_cases hst : m.st.status = "LLM_FAILURE"
    · exact ⟨[], by simp [hd, hst]⟩
    · cases hl : env.llm m.llmCalls with
      | none => exact ⟨[], by simp [hd, hst, hl]⟩
      | some resp =>
        by_cases hm : m.st.output_mode = "copy" <;> simp [hd, hst, hl, hm]

/-- The fixer appends exactly one record when (and only when) it reaches the
output-application stage: inference enabled, no prior failure, LLM success. -/
lemma fixerStep_results_length (env : Env) (m : Machine) :
    (fixerStep env m).st.results.length = m.st.results.length +
      (if m.st.disable_llm = false ∧ m.st.status ≠ "LLM_FAILURE" ∧
          (env.llm m.llmCalls).isSome = true
       then 1 else 0) := by
  by_cases hcond : (m.st.disable_llm = false ∧ m.st.status ≠ "LLM_FAILURE" ∧
      (env.llm m.llmCalls).isSome = true)
  · rw [if_pos hcond]
    obtain ⟨hd, hst, hsome⟩ := hcond
    obtain ⟨resp, hl⟩ := Option.isSome_iff_exists.mp hsome
    unfold fixerStep
    simp only [hl, hd, hst, Bool.false_eq_true, if_false]
    split <;> simp
  · rw [if_neg hcond]
    unfold fixerStep
    by_cases hd : m.st.disable_llm = true
    · simp [hd]
    · by_cases hst : m.st.status = "LLM_FAILURE"
      · simp [hd, hst]
      · have hnone : env.llm m.llmCalls = none := by
          cases hopt : env.llm m.llmCalls with
          | none => rfl
          | some r =>
            exact absurd ⟨by simpa using hd, hst, by simp [hopt]⟩ hcond
        simp [hd, hst, hnone]

/-! ## Shape of function blocks and the copy-mode fragment -/

lemma consumeLit_append {ps t r : List Char} (h : consumeLit ps t = some r) :
    t = ps ++ r := by
  induction ps generalizing t with
  | nil =>
    simp only [consumeLit, Option.some.injEq] at h
    simp [h]
  | cons p ps ih =>
    cases t with
    | nil => simp [consumeLit] at h
    | cons c cs =>
      rw [consumeLit] at h
      split at h
      · rename_i hc
        rw [hc, List.cons_append, ih h]
      · exact absurd h (by simp)

lemma headerFull_shape {t : List Char} {w : List Char} {n : Nat}
    (h : headerFull t = some (w, n)) : ∃ rest, t = 'd' :: 'e' :: 'f' :: rest := by
  rw [headerFull] at h
  cases hc : consumeLit ("def".data) t with
  | none => rw [hc] at h; exact absurd h (by simp)
  | some t1 =>
    have := consumeLit_append hc
    exact ⟨t1, by simpa using this⟩

lemma headerFull_pos {t : List Char} {w : List Char} {n : Nat}
    (h : headerFull t = some (w, n)) : 1 ≤ n := by
  cases hc : consumeLit ("def".data) t with
  | none => rw [headerFull, hc] at h; exact absurd h (by simp)
  | some t1 =>
    simp only [headerFull, hc] at h
    repeat' split at h
    all_goals simp_all
    omega

lemma blockEndAux_ge (cs : List Char) (fuel k : Nat) :
    min k cs.length ≤ blockEndAux cs fuel k := by
  induction fuel generalizing k with
  | zero => exact Nat.min_le_left _ _
  | succ f ih =>
    rw [blockEndAux]
    split
    · exact Nat.min_le_right _ _
    · split
      · exact Nat.min_le_left _ _
      · exact le_trans (min_le_min (Nat.le_succ k) (le_refl _)) (ih (k + 1))

lemma funcBlocksAux_head (cs : List Char) (fuel : Nat) :
    ∀ i, ∀ p ∈ funcBlocksAux cs fuel i, ∃ l, p.2 = 'd' :: l := by
  induction fuel with
  | zero => intro i p hp; simp [funcBlocksAux] at hp
  | succ f ih =>
    intro i p hp
    rw [funcBlocksAux] at hp
    by_cases hlen : cs.length ≤ i
    · rw [if_pos hlen] at hp; simp at hp
    · rw [if_neg hlen] at hp
      by_cases hls : lineStart cs i = true
      · rw [if_pos hls] at hp
        rcases hh : headerFull (cs.drop i) with _ | ⟨name, consumed⟩
        · rw [hh] at hp
          exact ih (i + 1) p hp
        · rw [hh] at hp
          rcases List.mem_cons.mp hp with rfl | htail
          · obtain ⟨rest, hrest⟩ := headerFull_shape hh
            have hcons := headerFull_pos hh
            have hge := blockEndAux_ge cs (cs.length + 1) (i + consumed)
            have hi : i < cs.length := by omega
            have he : i + 1 ≤ blockEndAux cs (cs.length + 1) (i + consumed) := by
              omega
            obtain ⟨j, hj⟩ : ∃ j,
                blockEndAux cs (cs.length + 1) (i + consumed) - i = j + 1 :=
              ⟨blockEndAux cs (cs.length + 1) (i + consumed) - i - 1, by omega⟩
            refine ⟨('e' :: 'f' :: rest).take j, ?_⟩
            simp only [hj, hrest, List.take_succ_cons]
          · exact ih _ p htail
      · rw [if_neg hls] at hp
        exact ih (i + 1) p hp

lemma dropWhile_append_last {p : Char → Bool} {a : Char} (ha : p a = false)
    (xs : List Char) :
    List.dropWhile p (xs ++ [a]) = List.dropWhile p xs ++ [a] := by
  induction xs with
  | nil => simp [List.dropWhile, ha]
  | cons x xs ih =>
    by_cases hx : p x = true
    · simp [List.dropWhile_cons, hx, ih]
    · simp [List.dropWhile_cons, hx]

lemma pyStrip_d (l : List Char) : ∃ l2, pyStrip ('d' :: l) = 'd' :: l2 := by
  have hd : isPySpace 'd' = false := by decide
  refine ⟨(List.dropWhile isPySpace l.reverse).reverse, ?_⟩
  rw [pyStrip]
  rw [show List.dropWhile isPySpace ('d' :: l) = 'd' :: l from by
    simp [List.dropWhile_cons, hd]]
  rw [show ('d' :: l).reverse = l.reverse ++ ['d'] from by simp]
  rw [dropWhile_append_last hd]
  simp

lemma dictInsert_values {P : String → Prop} {m : List (String × String)} {k v : String}
    (hm : ∀ q ∈ m, P q.2) (hv : P v) :
    ∀ q ∈ dictInsert m k v, P q.2 := by
  intro q hq
  rw [dictInsert] at hq
  split at hq
  · obtain ⟨r, hr, hrq⟩ := List.mem_map.mp hq
    by_cases hk : r.1 == k
    · rw [if_pos hk] at hrq
      rw [← hrq]
      exact hv
    · rw [if_neg hk] at hrq
      rw [← hrq]
      exact hm r hr
  · rcases List.mem_append.mp hq with h | h
    · exact hm q h
    · rw [List.mem_singleton.mp h]
      exact hv

lemma func_blocks_values (src : String) :
    ∀ q ∈ func_blocks src, ∃ l, q.2.data = 'd' :: l := by
  rw [func_blocks]
  have hgen :
      ∀ (items : List (List Char × List Char)) (acc : List (String × String)),
        (∀ p ∈ items, ∃ l, p.2 = 'd' :: l) →
        (∀ q ∈ acc, ∃ l, q.2.data = 'd' :: l) →
        ∀ q ∈ items.foldl
            (fun acc p => dictInsert acc (String.mk p.1) (String.mk (pyStrip p.2))) acc,
          ∃ l, q.2.data = 'd' :: l := by
    intro items
    induction items with
    | nil => intro acc _ hacc q hq; exact hacc q hq
    | cons p ps ih =>
      intro acc hitems hacc q hq
      rw [List.foldl_cons] at hq
      obtain ⟨l, hl⟩ := hitems p (List.mem_cons_self p ps)
      have hv : ∃ l3, (String.mk (pyStrip p.2)).data = 'd' :: l3 := by
        rw [show (String.mk (pyStrip p.2)).data = pyStrip p.2 from rfl, hl]
        exact pyStrip_d l
      exact ih _ (fun r hr => hitems r (List.mem_cons_of_mem p hr))
        (@dictInsert_values (fun v => ∃ l3, v.data = 'd' :: l3) acc
          (String.mk p.1) (String.mk (pyStrip p.2)) hacc hv) q hq
  exact hgen _ [] (funcBlocksAux_head _ _ 0) (by simp)

lemma ne_empty_of_data {s : String} {l : List Char} (h : s.data = 'd' :: l) :
    s ≠ "" := by
  intro he
  rw [he] at h
  simp at h

lemma joinSep_length (xs : List String) (a : String) :
    a.length ≤ (xs.foldl (fun x y => x ++ "\n\n" ++ y) a).length := by
  induction xs generalizing a with
  | nil => exact le_refl _
  | cons b bs ih =>
    rw [List.foldl_cons]
    refine le_trans ?_ (ih (a ++ "\n\n" ++ b))
    simp only [String.length_append]
    omega

lemma joinSep_ne_empty {x : String} {l : List Char} (hx : x.data = 'd' :: l)
    (xs : List String) : joinSep (x :: xs) ≠ "" := by
  intro he
  have h1 := joinSep_length xs x
  rw [joinSep] at he
  rw [he] at h1
  have hlen : x.length = ('d' :: l).length := by
    show x.data.length = _
    rw [hx]
  simp at h1
  rw [hlen] at h1
  simp at h1

lemma changedBlocks_head (orig newCode : String) :
    ∀ x ∈ changedBlocks orig newCode, ∃ l, x.data = 'd' :: l := by
  intro x hx
  rw [changedBlocks] at hx
  obtain ⟨p, hp, hfx⟩ := List.mem_filterMap.mp hx
  obtain ⟨l, hl⟩ := func_blocks_values newCode p hp
  rcases hlook : lookupA (func_blocks orig) p.1 with _ | ob
  · rw [hlook] at hfx; simp at hfx
  · simp only [hlook] at hfx
    split at hfx
    · injection hfx with hfx
      rw [← hfx, show (String.mk (pyStrip p.2.data)).data = pyStrip p.2.data from rfl, hl]
      exact pyStrip_d l
    · simp at hfx

lemma frag_characterization (orig newCode : String)
    (h : changedBlocks orig newCode ≠ []) :
    fragmentContent orig newCode = joinSep (changedBlocks orig newCode) := by
  obtain ⟨x, xs, hxs⟩ : ∃ x xs, changedBlocks orig newCode = x :: xs := by
    cases hc : changedBlocks orig newCode with
    | nil => exact absurd hc h
    | cons a b => exact ⟨a, b, rfl⟩
  obtain ⟨l, hl⟩ :=
    changedBlocks_head orig newCode x (by rw [hxs]; exact List.mem_cons_self _ _)
  simp only [fragmentContent]
  rw [hxs, if_neg (joinSep_ne_empty hl xs)]

lemma frag_ne_empty (orig newCode : String) (h : func_blocks newCode ≠ []) :
    fragmentContent orig newCode ≠ "" := by
  obtain ⟨q, qs, hnm⟩ : ∃ q qs, func_blocks newCode = q :: qs := by
    cases hc : func_blocks newCode with
    | nil => exact absurd hc h
    | cons a b => exact ⟨a, b, rfl⟩
  obtain ⟨lq, hlq⟩ := func_blocks_values newCode q (by rw [hnm]; exact List.mem_cons_self _ _)
  simp only [fragmentContent]
  split
  · split
    · rename_i hinter
      rw [hnm]
      show String.mk (pyStrip (((some q.2).getD "").data)) ≠ ""
      obtain ⟨l2, hl2⟩ := pyStrip_d lq
      refine ne_empty_of_data (l := l2) ?_
      show pyStrip q.2.data = 'd' :: l2
      rw [hlq, hl2]
    · rename_i x rest hinter
      have hx : x ∈ (func_blocks newCode).filterMap (fun p =>
          if (lookupA (func_blocks orig) p.1).isSome = true
          then some (String.mk (pyStrip p.2.data)) else none) := by
        rw [hinter]
        exact List.mem_cons_self _ _
      obtain ⟨p, hp, hfx⟩ := List.mem_filterMap.mp hx
      split at hfx
      · injection hfx with hfx
        obtain ⟨l, hl⟩ := func_blocks_values newCode p hp
        obtain ⟨l2, hl2⟩ := pyStrip_d l
        refine ne_empty_of_data (l := l2) ?_
        rw [← hfx, show (String.mk (pyStrip p.2.data)).data = pyStrip p.2.data from rfl, hl, hl2]
      · simp at hfx
  · rename_i hne
    exact hne

lemma fixer_copy_write (env : Env) (m : Machine) (resp : String)
    (hphase : m.phase = Phase.fixer) (hd : m.st.disable_llm = false)
    (hst : m.st.status ≠ "LLM_FAILURE") (hl : env.llm m.llmCalls = some resp)
    (hmode : m.st.output_mode = "copy") :
    (step env m).writes = m.writes ++
      [(fixDest m.st, fragmentContent m.st.current_file_content (extractCode resp))] := by
  rw [show step env m = fixerStep env m from by rw [step, hphase]]
  unfold fixerStep
  simp [hd, hst, hl, hmode]

/-- The worklist is constant along a run. -/
lemma run_files_eq (env : Env) (m : Machine) (n : Nat) :
    (run env m n).st.files = m.st.files := by
  induction n with
  | zero => rfl
  | succ k ih => rw [run, step_files_eq, ih]

/-! ## The claims -/

/-- C1: for every state reaching the judge, the routing decision is ADVANCE
(`next_file`) exactly when inference is disabled for the run, or the status is
`LLM_FAILURE`, or the stored test result's success flag is true, or the
iteration counter has reached `max_iterations`; otherwise the decision is a
retry back to the fixer.  The judge increments the counter as part of its
update, a retry is only taken while the incremented counter is still below
`max_iterations`, and consequently, within one file 's processing (no
`next_file` transition), at most `max_iterations` retry transitions occur. -/
theorem claim1_judge_routing :
    (∀ s : SwarmState, judgeRoute s = true ↔
      (s.disable_llm = true ∨ s.status = "LLM_FAILURE" ∨
        (s.test_results.map TestResult.success).getD false = true ∨
        s.max_iterations ≤ s.iteration_count)) ∧
    (∀ env m, m.phase = Phase.judge →
      ((step env m).phase = Phase.fixer ∨ (step env m).phase = Phase.nextFile) ∧
      (step env m).st.iteration_count = m.st.iteration_count + 1 ∧
      ((step env m).phase = Phase.fixer →
        (step env m).st.iteration_count < m.st.max_iterations)) ∧
    (∀ env m n, m.st.iteration_count = 0 →
      (∀ k, k < n → (run env m k).phase ≠ Phase.nextFile) →
      countRetries env m n ≤ m.st.max_iterations) :=
  ⟨judgeRoute_iff, judge_step_cases,
    fun env m n h0 hn => (countRetries_le env m n h0 hn).2⟩

/-- C1 witness: the retry bound instantiated on the concrete scenario run. -/
theorem claim1_witness :
    countRetries failEnv scenarioMachine 3 ≤ scenarioMachine.st.max_iterations :=
  claim1_judge_routing.2.2 failEnv scenarioMachine 3 (by decide) (by decide)

/-- C2 counterexample: in the exact scenario of the claim (one file, tests
failing at every judge call, `max_iterations = 2`, LLM enabled and always
succeeding), the run completes with exactly 2 fixer invocations, not the
claimed 3: the judge increments the counter before the router compares it
with the budget. -/
theorem claim2_counterexample :
    (run failEnv scenarioMachine 8).phase = Phase.done ∧
    (run failEnv scenarioMachine 8).fixExecs = 2 ∧
    ¬((run failEnv scenarioMachine 8).fixExecs = 3) := by decide

/-- C2 (amended): for a run over a single file whose tests fail on every
judge invocation, with `max_iterations = 2` and the inference backend enabled
and never failing, the fix stage is invoked exactly 2 times (1 initial
invocation plus 1 retry) before the ADVANCE transition fires, and the
iteration counter is 0 when the next file's processing begins. -/
theorem claim2_amended (env : Env)
    (hp : ∀ k, env.pytest k = { success := false, output := "FAILED", return_code := 1 })
    (hl : ∀ k, env.llm k = some "y = 2\n")
    (hr : ∀ k, env.read k = "x = 1\n")
    (hpl : ∀ k, env.pylint k = "") :
    (run env scenarioMachine 8).phase = Phase.done ∧
    (run env scenarioMachine 8).fixExecs = 2 ∧
    (run env scenarioMachine 7).phase = Phase.manager ∧
    (run env scenarioMachine 7).st.iteration_count = 0 ∧
    (run env scenarioMachine 7).st.current_file_index = 1 := by
  have he : env = failEnv := by
    obtain ⟨r, p, l, t⟩ := env
    simp only [failEnv, Env.mk.injEq]
    exact ⟨funext fun k => hr k, funext fun k => hpl k,
      funext fun k => hl k, funext fun k => hp k⟩
  rw [he]
  decide

/-- C2 witness: the amended claim at the concrete failing environment. -/
theorem claim2_witness :
    (run failEnv scenarioMachine 8).phase = Phase.done ∧
    (run failEnv scenarioMachine 8).fixExecs = 2 ∧
    (run failEnv scenarioMachine 7).phase = Phase.manager ∧
    (run failEnv scenarioMachine 7).st.iteration_count = 0 ∧
    (run failEnv scenarioMachine 7).st.current_file_index = 1 :=
  claim2_amended failEnv (fun _ => rfl) (fun _ => rfl) (fun _ => rfl) (fun _ => rfl)

/-- C3 counterexample: `next_file_node` does not reset `test_results` — a
state carrying a failed judge outcome keeps it unchanged across the file
transition, so the last outcome of one file is visible to the next. -/
theorem claim3_counterexample :
    (nextFileUpd carryState).test_results =
      some { success := false, output := "boom", return_code := 1 } ∧
    ¬((nextFileUpd carryState).test_results = none) := by decide

/-- C3 (amended): every ADVANCE step increments `fileIndex` by exactly one,
resets `retryCount` to 0, and sets `currentFile` to the path at the new index
or marks it absent past the end; but `testResult` is NOT reset — it is left
unchanged, carrying the previous file's last judge outcome into the next
file's processing. -/
theorem claim3_amended :
    (∀ s : SwarmState,
      (nextFileUpd s).current_file_index = s.current_file_index + 1 ∧
      (nextFileUpd s).iteration_count = 0 ∧
      (nextFileUpd s).current_file_path =
        (if s.current_file_index + 1 < s.files.length
         then some (s.files.getD (s.current_file_index + 1) "") else none) ∧
      (nextFileUpd s).test_results = s.test_results ∧
      (nextFileUpd s).results = s.results) ∧
    (∀ env m, m.phase = Phase.nextFile → (step env m).st = nextFileUpd m.st) :=
  ⟨fun _ => ⟨rfl, rfl, rfl, rfl, rfl⟩, fun env m h => by rw [step, h]⟩

/-- C3 witness: the machine-level conjunct at a concrete configuration. -/
theorem claim3_witness :
    (step failEnv { scenarioMachine with st := carryState, phase := Phase.nextFile }).st =
      nextFileUpd carryState :=
  claim3_amended.2 failEnv _ rfl

/-- C4 counterexample: in copy mode, with a pytest probe reporting failure,
the judge records `success := true` in `test_results` — the real boolean
outcome is NOT preserved in the recorded result (only the output text is). -/
theorem claim4_counterexample :
    (failEnv.pytest 0).success = false ∧
    (step failEnv judgeCopyMachine).st.test_results =
      some { success := true, output := "FAILED", return_code := 1 } := by decide

/-- C4 (amended): in copy mode, for every judge invocation the success value
used for routing is true regardless of the probe's real outcome (the judge
always advances), and the real probe output text and exit code are recorded
in `testResult`; the recorded success flag, however, is overwritten with the
forced `true`, so the real boolean outcome survives only in the output text. -/
theorem claim4_amended (env : Env) (m : Machine) (hp : m.phase = Phase.judge)
    (hm : m.st.output_mode = "copy") :
    (step env m).st.test_results = some
      { success := true, output := (env.pytest m.pytestCalls).output,
        return_code := (env.pytest m.pytestCalls).return_code } ∧
    (step env m).phase = Phase.nextFile := by
  have hs : step env m = judgeStep env m := by rw [step, hp]
  constructor
  · rw [hs]
    unfold judgeStep
    simp [hm]
  · rw [hs, (judgeStep_proj env m).1]
    have hroute : judgeRoute (judgeStep env m).st = true := by
      apply (judgeRoute_iff _).mpr
      refine Or.inr (Or.inr (Or.inl ?_))
      unfold judgeStep
      simp [hm]
    rw [hroute]
    simp

/-- C4 witness: the amended claim at a concrete copy-mode judge step. -/
theorem claim4_witness :
    (step failEnv judgeCopyMachine).st.test_results = some
      { success := true,
        output := (failEnv.pytest judgeCopyMachine.pytestCalls).output,
        return_code := (failEnv.pytest judgeCopyMachine.pytestCalls).return_code } ∧
    (step failEnv judgeCopyMachine).phase = Phase.nextFile :=
  claim4_amended failEnv judgeCopyMachine rfl rfl

/-- C5 counterexample: in an inference-disabled run the iteration counter
does not stay 0 throughout: right after the judge step (before the
`next_file` reset) it is 1, because `judge_node` increments it
unconditionally. -/
theorem claim5_counterexample :
    disabledMachine.st.disable_llm = true ∧
    (run failEnv disabledMachine 4).st.iteration_count = 1 ∧
    (run failEnv disabledMachine 4).llmCalls = 0 := by decide

/-- C5 (amended): for every run started with inference disabled, no request
is ever sent to the inference backend by any stage, the judge always routes
ADVANCE, and the iteration counter never exceeds 1, being 0 everywhere except
momentarily at the `next_file` node (it is not 0 throughout, because the
judge increments it once per file before it is reset). -/
theorem claim5_amended :
    (∀ env m, DisabledInv m → DisabledInv (step env m)) ∧
    (∀ env m, m.st.disable_llm = true → (step env m).llmCalls = m.llmCalls) ∧
    (∀ env m, m.st.disable_llm = true → m.phase = Phase.judge →
      (step env m).phase = Phase.nextFile) ∧
    (∀ files target maxIter mode outd,
      DisabledInv (initMachine files target maxIter true mode outd)) :=
  ⟨disabledInv_step, step_llm_disabled, step_judge_disabled,
    fun _ _ _ _ _ => fun _ => ⟨rfl, Nat.zero_le 1, fun _ => rfl⟩⟩

/-- C5 witness: the invariant is preserved by one step of the concrete
disabled run. -/
theorem claim5_witness : DisabledInv (step failEnv disabledMachine) :=
  claim5_amended.1 failEnv disabledMachine (fun _ => ⟨rfl, by decide, fun _ => rfl⟩)

/-- C6 counterexample: the returned value is not always −1 or in [0,10]: the
text `"rated at 12.5/10"` parses to 12.5, which exceeds 10 and is not −1. -/
theorem claim6_counterexample :
    extract_score "rated at 12.5/10" = 25 / 2 ∧
    ¬(extract_score "rated at 12.5/10" ≤ 10) ∧
    ¬(extract_score "rated at 12.5/10" = -1) := by
  have hval : extract_score "rated at 12.5/10" = 25 / 2 := by
    have h1 : searchRatedAt ("rated at 12.5/10").data = some ['1', '2', '.', '5'] := by
      decide
    simp only [extract_score, h1]
    rw [parseFloat, if_pos (by decide)]
    rw [show (['1', '2', '.', '5'] : List Char).splitOn '.' = [['1', '2'], ['5']] from by
      decide]
    norm_num [show digitsToNat ['1', '2'] = 12 from by decide,
      show digitsToNat ['5'] = 5 from by decide,
      show (['5'] : List Char).length = 1 from rfl]
  refine ⟨hval, ?_, ?_⟩ <;> rw [hval] <;> norm_num

/-- C6 (amended): score extraction locates the case-insensitive pattern
`rated at <number>/10`, parses the number, and returns it, with −1 when no
pattern is found or parsing fails; the returned value is always either −1 or
a nonnegative rational (not necessarily ≤ 10); in particular a report
containing `rated at 7.50/10` yields 7.5 and a text with no such substring
yields −1. -/
theorem claim6_amended :
    extract_score "Your code has been rated at 7.50/10 (previous run: 7.00/10, +0.50)" = 7.5 ∧
    extract_score "text with no such substring" = -1 ∧
    (∀ t, extract_score t = -1 ∨ 0 ≤ extract_score t) := by
  refine ⟨?_, ?_, extract_score_cases⟩
  · have h1 : searchRatedAt
        ("Your code has been rated at 7.50/10 (previous run: 7.00/10, +0.50)").data =
        some ['7', '.', '5', '0'] := by decide
    simp only [extract_score, h1]
    rw [parseFloat, if_pos (by decide)]
    rw [show (['7', '.', '5', '0'] : List Char).splitOn '.' = [['7'], ['5', '0']] from by
      decide]
    norm_num [show digitsToNat ['7'] = 7 from by decide,
      show digitsToNat ['5', '0'] = 50 from by decide,
      show (['5', '0'] : List Char).length = 2 from rfl]
  · have h2 : searchRatedAt ("text with no such substring").data = none := by decide
    simp [extract_score, h2]

/-- C7 counterexample: with retries, the same file yields more than one
repair record — one per fixer invocation — refuting "exactly one record per
file processed": the one-file scenario run ends with two records for
`a.py`. -/
theorem claim7_counterexample :
    (run failEnv scenarioMachine 8).phase = Phase.done ∧
    scenarioMachine.st.files = ["a.py"] ∧
    (run failEnv scenarioMachine 8).st.results.map RepairEntry.original_path =
      ["a.py", "a.py"] := by decide

/-- C7 (amended): the results sequence is append-only — no transition ever
modifies or removes an existing record — and exactly one record is appended
per fixer invocation that reaches output application (inference enabled, no
recorded failure, LLM success); all other transitions, including disabled or
failure-skipping fixer runs, append none.  A file processed can therefore
yield zero records (disabled or failed backend) or several (one per retry). -/
theorem claim7_amended (env : Env) (m : Machine) :
    (∃ t, (step env m).st.results = m.st.results ++ t) ∧
    (step env m).st.results.length = m.st.results.length +
      (if m.phase = Phase.fixer ∧ m.st.disable_llm = false ∧
          m.st.status ≠ "LLM_FAILURE" ∧ (env.llm m.llmCalls).isSome = true
       then 1 else 0) := by
  cases hp : m.phase
  case manager =>
    have hres : (step env m).st.results = m.st.results := by
      simp only [step, hp]; split <;> rfl
    exact ⟨⟨[], by simp [hres]⟩, by rw [hres]; simp⟩
  case auditor =>
    have hres : (step env m).st.results = m.st.results := by
      rw [show step env m = auditorStep env m from by rw [step, hp]]
      exact (auditorStep_proj env m).2.2.2.2.2.2.1
    exact ⟨⟨[], by simp [hres]⟩, by rw [hres]; simp⟩
  case fixer =>
    have hs : step env m = fixerStep env m := by rw [step, hp]
    rw [hs]
    refine ⟨fixerStep_results_append env m, ?_⟩
    rw [fixerStep_results_length env m]
    by_cases hX : (m.st.disable_llm = false ∧ m.st.status ≠ "LLM_FAILURE" ∧
        (env.llm m.llmCalls).isSome = true)
    · rw [if_pos hX, if_pos ⟨rfl, hX⟩]
    · rw [if_neg hX, if_neg (fun hc => hX hc.2)]
  case judge =>
    have hres : (step env m).st.results = m.st.results := by
      rw [show step env m = judgeStep env m from by rw [step, hp]]
      exact (judgeStep_proj env m).2.2.2.2.2.2.2.1
    exact ⟨⟨[], by simp [hres]⟩, by rw [hres]; simp⟩
  case nextFile =>
    have hres : (step env m).st.results = m.st.results := by
      simp [step, hp, nextFileUpd]
    exact ⟨⟨[], by simp [hres]⟩, by rw [hres]; simp⟩
  case done =>
    have hres : (step env m).st.results = m.st.results := by
      simp [step, hp]
    exact ⟨⟨[], by simp [hres]⟩, by rw [hres]; simp⟩

/-- C8 counterexample: the claimed bound `len(files) * (maxRetries + 1)` on
stage executions fails: the one-file scenario with `max_iterations = 2`
executes 5 stages (1 audit + 2 fix + 2 judge), exceeding 1 * (2 + 1) = 3. -/
theorem claim8_counterexample :
    (run failEnv scenarioMachine 8).phase = Phase.done ∧
    (run failEnv scenarioMachine 8).auditExecs +
      (run failEnv scenarioMachine 8).fixExecs +
      (run failEnv scenarioMachine 8).judgeExecs = 5 ∧
    ¬(5 ≤ scenarioMachine.st.files.length *
        (scenarioMachine.st.max_iterations + 1)) := by decide

/-- C8 (amended): `fileIndex` is monotonically non-decreasing across all
transitions, and every run from the initial configuration terminates with
`fileIndex` equal to the number of files; the bound
`len(files) * (maxRetries + 1)` holds for the number of FIX invocations (one
per fix/judge cycle), not for the total count of stage executions, which can
reach `2 * maxRetries + 3` per file. -/
theorem claim8_amended :
    (∀ env m n, (run env m n).st.current_file_index ≤
      (run env m (n + 1)).st.current_file_index) ∧
    (∀ env (files : List String) (target : String) (maxIter : Nat) (dis : Bool)
        (mode outd : String),
      ∃ k, k ≤ mu (initMachine files target maxIter dis mode outd) ∧
        (run env (initMachine files target maxIter dis mode outd) k).phase =
          Phase.done ∧
        (run env (initMachine files target maxIter dis mode outd) k).st.current_file_index =
          files.length ∧
        (run env (initMachine files target maxIter dis mode outd) k).fixExecs ≤
          files.length * (maxIter + 1)) := by
  constructor
  · intro env m n
    rw [run]
    exact step_index_mono env (run env m n)
  · intro env files target maxIter dis mode outd
    have hR := reach_init files target maxIter dis mode outd
    obtain ⟨k, hk, hdone⟩ :=
      run_reaches_done env (mu (initMachine files target maxIter dis mode outd))
        (initMachine files target maxIter dis mode outd) hR (le_refl _)
    have hRk := reach_run env _ hR k
    have hfiles := run_files_eq env (initMachine files target maxIter dis mode outd) k
    have hlen : (run env (initMachine files target maxIter dis mode outd) k).st.files.length =
        files.length := by rw [hfiles]; rfl
    refine ⟨k, hk, hdone, ?_, ?_⟩
    · have h1 := hRk.1
      have h5 := hRk.2.2.2.2 hdone
      omega
    · have hb := fixBudget_run env (initMachine files target maxIter dis mode outd) hR k
      have hinit : (initMachine files target maxIter dis mode outd).fixExecs +
          fixBudget (initMachine files target maxIter dis mode outd) =
          files.length * (maxIter + 1) := by
        simp [initMachine, fixBudget, budgetCost]
      omega

/-- C9: in copy mode the written fragment is the blank-line-separated
concatenation of exactly those function blocks present in both partitions
under the same name whose whitespace-normalized forms differ; on the spec's
example only the changed `f` block is written; whenever the new partition has
at least one block the written content is non-empty (the fallback picks a
common or first new block); and the copy-mode fixer writes exactly this
content to the computed destination. -/
theorem claim9_fragment :
    fragmentContent "def f(): pass\n\ndef g(): pass"
      "def f(): return 1\n\ndef g(): pass" = "def f(): return 1" ∧
    (∀ orig newCode, changedBlocks orig newCode ≠ [] →
      fragmentContent orig newCode = joinSep (changedBlocks orig newCode)) ∧
    (∀ orig newCode, func_blocks newCode ≠ [] → fragmentContent orig newCode ≠ "") ∧
    (∀ env m resp, m.phase = Phase.fixer → m.st.disable_llm = false →
      m.st.status ≠ "LLM_FAILURE" → env.llm m.llmCalls = some resp →
      m.st.output_mode = "copy" →
      (step env m).writes = m.writes ++
        [(fixDest m.st, fragmentContent m.st.current_file_content (extractCode resp))]) :=
  ⟨by decide, frag_characterization, frag_ne_empty, fixer_copy_write⟩

/-- C9 witness: the non-emptiness guarantee at a concrete input with one new
block and no common name. -/
theorem claim9_witness :
    fragmentContent "x = 1" "def h(a, b):\n    return a\n" ≠ "" :=
  claim9_fragment.2.2.1 "x = 1" "def h(a, b):\n    return a\n" (by decide)

/-- C10: once `status` is `LLM_FAILURE` (with inference enabled, the only way
the failure status arises), no transition ever writes a different value — a
later successful audit leaves it untouched because its update carries no
status key — and every fixer step from such a state skips the model call,
performs no write, and returns the file content unmodified. -/
theorem claim10_failure_sticky (env : Env) (m : Machine)
    (hd : m.st.disable_llm = false) (hst : m.st.status = "LLM_FAILURE") :
    (step env m).st.status = "LLM_FAILURE" ∧
    (step env m).st.disable_llm = false ∧
    (m.phase = Phase.fixer →
      (step env m).llmCalls = m.llmCalls ∧
      (step env m).st.current_file_content = m.st.current_file_content ∧
      (step env m).writes = m.writes) := by
  refine ⟨?_, by rw [step_disable_eq]; exact hd, fun hp => ?_⟩
  · cases hp : m.phase
    case manager =>
      simp only [step, hp]
      split <;> exact hst
    case auditor =>
      rw [show step env m = auditorStep env m from by rw [step, hp]]
      unfold auditorStep
      rcases hl : env.llm m.llmCalls with _ | resp <;> simp [hl, hd, hst]
    case fixer =>
      rw [show step env m = fixerStep env m from by rw [step, hp]]
      unfold fixerStep
      simp [hd, hst]
    case judge =>
      rw [show step env m = judgeStep env m from by rw [step, hp]]
      rw [(judgeStep_proj env m).2.2.2.2.2.2.1]
      exact hst
    case nextFile =>
      simp only [step, hp, nextFileUpd]
      exact hst
    case done =>
      simp only [step, hp]
      exact hst
  · rw [show step env m = fixerStep env m from by rw [step, hp]]
    unfold fixerStep
    simp [hd, hst]

/-- C10 witness: the sticky-failure behaviour at a concrete fixer
configuration. -/
theorem claim10_witness :
    (step failEnv stuckMachine).st.status = "LLM_FAILURE" ∧
    (step failEnv stuckMachine).st.disable_llm = false ∧
    (stuckMachine.phase = Phase.fixer →
      (step failEnv stuckMachine).llmCalls = stuckMachine.llmCalls ∧
      (step failEnv stuckMachine).st.current_file_content =
        stuckMachine.st.current_file_content ∧
      (step failEnv stuckMachine).writes = stuckMachine.writes) :=
  claim10_failure_sticky failEnv stuckMachine rfl rfl

end RefactoringSwarm
